import Mathlib

/-!
Verification of a CDCL SAT solver (`code.cpp`).

The C++ core is shallowly embedded below.  Machine `int`s become `Int`,
`std::vector` becomes `List`, `std::unordered_map<int, Assignment>` becomes an
association list built only through the map operations (insert-or-overwrite,
erase), `std::optional` becomes `Option`.  The `while` loops of
`unit_propagation` and `cdcl_solve` are fueled: a result of `none` means the
step budget ran out, `some r` means the C++ loop returned `r`.  The random
branching of `pick_branching_variable` is modeled by an oracle supplying, per
decision, the raw draw of the index distribution and of the value
distribution; quantifying over oracles covers every behavior of the RNG.
-/

structure Literal where
  var : Int
  negation : Bool
deriving DecidableEq

/-- Embeds `Literal::neg`: flips the polarity only. -/
def Literal.neg (l : Literal) : Literal := ⟨l.var, !l.negation⟩

structure Clause where
  literals : List Literal
deriving DecidableEq

/-- The variable set computed by the `Formula` constructor: every variable of
every literal of every clause is inserted into the set. -/
def clausesVars (cls : List Clause) : Finset Int :=
  cls.foldr (fun c s => c.literals.foldr (fun l t => insert l.var t) s) ∅

/-- Embeds `Formula`: the clause list plus the variable set computed at construction
time.  `cdcl_solve` appends learned clauses to `clauses` but never updates
`vars`, exactly as in the C++ code, so the two fields are kept separate. -/
structure Formula where
  clauses : List Clause
  vars : Finset Int
deriving DecidableEq

/-- The `Formula(vector<Clause>)` constructor. -/
def mkFormula (cls : List Clause) : Formula := ⟨cls, clausesVars cls⟩

/-- Embeds `Formula::get_variables`. -/
def Formula.get_variables (f : Formula) : Finset Int := f.vars

/-- One trail entry: truth value, optional antecedent clause, decision level. -/
structure Assignment where
  value : Bool
  antecedent : Option Clause
  dl : Int
deriving DecidableEq

/-- The `Assignments` class: the variable-to-entry map and the current
decision level. -/
structure Assignments where
  assignments : List (Int × Assignment)
  dl : Int
deriving DecidableEq

/-- Embeds `assignments.find(v)` on the underlying map. -/
def lookupVar : List (Int × Assignment) → Int → Option Assignment
  | [], _ => none
  | (k, x) :: rest, v => if k = v then some x else lookupVar rest v

/-- Embeds `Assignments::value`: an unassigned variable evaluates to `false`; an
assigned one to its stored value, negated for a negative literal. -/
def Assignments.value (a : Assignments) (l : Literal) : Bool :=
  match lookupVar a.assignments l.var with
  | none => false
  | some x => if l.negation then !x.value else x.value

/-- Embeds `Assignments::assign`: insert-or-overwrite at the current decision
level.  Map semantics: the entry for `v` is replaced, all others are kept. -/
def Assignments.assign (a : Assignments) (v : Int) (val : Bool)
    (antecedent : Option Clause) : Assignments :=
  { a with assignments := (v, ⟨val, antecedent, a.dl⟩) ::
      a.assignments.filter fun p => p.1 != v }

/-- Embeds `Assignments::unassign`: erase the entry entirely. -/
def Assignments.unassign (a : Assignments) (v : Int) : Assignments :=
  { a with assignments := a.assignments.filter fun p => p.1 != v }

/-- Embeds `Assignments::satisfy`: every clause has some literal true under `value`. -/
def Assignments.satisfy (a : Assignments) (f : Formula) : Bool :=
  f.clauses.all fun c => c.literals.any fun l => a.value l

/-- Embeds `Assignments::size`: number of map entries. -/
def Assignments.size (a : Assignments) : Nat := a.assignments.length

/-- Embeds `all_variables_assigned`: compares the two sizes, as the C++ does. -/
def all_variables_assigned (f : Formula) (a : Assignments) : Bool :=
  f.get_variables.card == a.size

/-- Embeds `pick_branching_variable`.  The C++ builds the list of unassigned
variables in the order of the sorted `std::set`, then draws a uniform index
and a uniform Boolean.  The raw draws are supplied by `r`; the index draw is
reduced modulo the list length, which reaches every index. -/
def pick_branching_variable (f : Formula) (a : Assignments) (r : Nat × Bool) :
    Int × Bool :=
  let unassigned_vars :=
    (f.get_variables.sort (· ≤ ·)).filter fun v => (lookupVar a.assignments v).isNone
  ((unassigned_vars[r.1 % unassigned_vars.length]?).getD 0, r.2)

/-- Embeds `backtrack`: remove every entry whose decision level exceeds `b`. -/
def backtrack (a : Assignments) (b : Int) : Assignments :=
  { a with assignments := a.assignments.filter fun p => !(decide (p.2.dl > b)) }

/-- Result of scanning one clause, mirroring the literal loop of
`unit_propagation`: either some literal was found assigned-true (the
`clause_satisfied` break), or the scan completed with the false-literal count
and the last unassigned literal seen. -/
inductive ScanResult where
  | satisfied
  | pending (false_count : Nat) (unassigned_literal : Option Literal)
deriving DecidableEq

/-- The literal loop of `unit_propagation` over one clause. -/
def scanClause (a : Assignments) : List Literal → Nat → Option Literal → ScanResult
  | [], fc, ul => .pending fc ul
  | l :: ls, fc, ul =>
    if lookupVar a.assignments l.var = none then scanClause a ls fc (some l)
    else if a.value l then .satisfied
    else scanClause a ls (fc + 1) ul

/-- Result of one pass over the clause list: an immediate conflict return, or
the end of the pass with the updated trail and the `finish` flag. -/
inductive PassResult where
  | conflict (c : Clause) (a : Assignments)
  | done (a : Assignments) (finish : Bool)
deriving DecidableEq

/-- One pass of the clause loop of `unit_propagation`.  On a unit clause the
forced literal is assigned (antecedent = the clause) and `finish` is cleared;
on a fully false clause the pass aborts with the conflict.  The C++ unit test
is `false_count == size - 1 && unassigned_literal.has_value()` with `size_t`
arithmetic; when an unassigned literal exists the clause is nonempty, so the
test is `false_count = size - 1` in the `some` branch, and it is false in the
`none` branch. -/
def passClauses (a : Assignments) (finish : Bool) : List Clause → PassResult
  | [] => .done a finish
  | c :: cs =>
    match scanClause a c.literals 0 none with
    | .satisfied => passClauses a finish cs
    | .pending fc (some l) =>
      if fc = c.literals.length - 1 then
        passClauses (a.assign l.var (!l.negation) (some c)) false cs
      else if fc = c.literals.length then .conflict c a
      else passClauses a finish cs
    | .pending fc none =>
      if fc = c.literals.length then .conflict c a
      else passClauses a finish cs

/-- The outer `while (!finish)` loop of `unit_propagation`, fueled by the
number of passes allowed.  `some (some c, a)` is the `{"conflict", clause}`
return, `some (none, a)` the `{"unresolved", nullopt}` return, in both cases
together with the mutated trail. -/
def upLoop (cls : List Clause) (a : Assignments) :
    Nat → Option (Option Clause × Assignments)
  | 0 => none
  | fuel + 1 =>
    match passClauses a true cls with
    | .conflict c a => some (some c, a)
    | .done a true => some (none, a)
    | .done a false => upLoop cls a fuel

/-- Embeds `unit_propagation`. -/
def unit_propagation (f : Formula) (a : Assignments) (fuel : Nat) :
    Option (Option Clause × Assignments) :=
  upLoop f.clauses a fuel

/-- Embeds `conflict_analysis`: at decision level 0 the sentinel `-1`, otherwise
level `dl - 1`; the learned clause is the conflicting clause itself. -/
def conflict_analysis (c : Clause) (a : Assignments) : Int × Clause :=
  if a.dl = 0 then (-1, c) else (a.dl - 1, c)

/-- The inner `while (true)` loop of `cdcl_solve`: propagate; on conflict
analyze, on sentinel return UNSAT, else push the learned clause, backtrack
and set the decision level; on `unresolved` exit with the current state.
`some (f, none)` is the UNSAT return, `some (f, some a)` resumes the outer
loop. -/
def innerLoop (f : Formula) (a : Assignments) :
    Nat → Option (Formula × Option Assignments)
  | 0 => none
  | fuel + 1 =>
    match unit_propagation f a (fuel + 1) with
    | none => none
    | some (some c, a) =>
      let r := conflict_analysis c a
      if r.1 < 0 then some (f, none)
      else innerLoop { f with clauses := f.clauses ++ [r.2] }
        { backtrack a r.1 with dl := r.1 } fuel
    | some (none, a) => some (f, some a)

/-- One decision of the driver: `assignments.dl++` followed by
`assignments.assign(var, val, nullopt)` for the picked pair. -/
def decide_step (p : Int × Bool) (a : Assignments) : Assignments :=
  Assignments.assign { a with dl := a.dl + 1 } p.1 p.2 none

/-- The `while (!all_variables_assigned(...))` loop of `cdcl_solve`.  Each
decision bumps the level and assigns the picked variable with no antecedent;
`chooser` abstracts `pick_branching_variable` (it is fed the index `k` of the
decision). -/
def outerLoop (chooser : Nat → Formula → Assignments → Int × Bool) (k : Nat)
    (f : Formula) (a : Assignments) :
    Nat → Option (Formula × Option Assignments)
  | 0 => none
  | fuel + 1 =>
    if all_variables_assigned f a then some (f, some a)
    else
      match innerLoop f (decide_step (chooser k f a) a) (fuel + 1) with
      | none => none
      | some (f, none) => some (f, none)
      | some (f, some a2) => outerLoop chooser (k + 1) f a2 fuel

/-- Embeds `cdcl_solve` for an arbitrary decision policy: initial propagation on the
empty trail at level 0, immediate UNSAT on conflict, then the main loop.  The
final formula (the C++ function mutates its argument) is returned together
with the verdict: `some (f, none)` is the `nullopt` (UNSAT) return,
`some (f, some a)` the SAT return. -/
def cdclRun (chooser : Nat → Formula → Assignments → Int × Bool) (f : Formula)
    (fuel : Nat) : Option (Formula × Option Assignments) :=
  match unit_propagation f ⟨[], 0⟩ fuel with
  | none => none
  | some (some _, _) => some (f, none)
  | some (none, a) => outerLoop chooser 0 f a fuel

/-- Embeds `cdcl_solve` as in the source: decisions come from
`pick_branching_variable` fed by the random draws `oracle k`. -/
def cdcl_solve (oracle : Nat → Nat × Bool) (f : Formula) (fuel : Nat) :
    Option (Formula × Option Assignments) :=
  cdclRun (fun k g a => pick_branching_variable g a (oracle k)) f fuel

/-- Embeds `cdcl_solve` with `pick_branching_variable` replaced by a deterministic
function of the formula and the trail. -/
def cdcl_solve_with (pick : Formula → Assignments → Int × Bool) (f : Formula)
    (fuel : Nat) : Option (Formula × Option Assignments) :=
  cdclRun (fun _ => pick) f fuel

/-- A literal whose variable has a trail entry. -/
def assignedLit (a : Assignments) (l : Literal) : Bool :=
  (lookupVar a.assignments l.var).isSome

/-- Every literal of the clause is assigned and false: a conflict clause. -/
def Clause.falsifiedBy (c : Clause) (a : Assignments) : Bool :=
  c.literals.all fun l => assignedLit a l && !a.value l

/-- Exactly one literal of the clause is unassigned and all assigned ones are
false: a unit clause. -/
def Clause.unitIn (c : Clause) (a : Assignments) : Bool :=
  ((c.literals.filter fun l => !assignedLit a l).length == 1) &&
    ((c.literals.filter fun l => assignedLit a l).all fun l => !a.value l)

/-- Keys of the trail map. -/
def varKeys (l : List (Int × Assignment)) : List Int := l.map Prod.fst

/-- The trail carried by a pass result. -/
def passResultTrail : PassResult → Assignments
  | .conflict _ a => a
  | .done a _ => a

/-- Clause-variable containment: every literal of every listed clause names a
variable in `V`. -/
def ClauseListVars (cls : List Clause) (V : Finset Int) : Prop :=
  ∀ c ∈ cls, ∀ l ∈ c.literals, l.var ∈ V

/-- Trail-key sanity: distinct keys, all inside `V`. -/
def KeysOK (a : Assignments) (V : Finset Int) : Prop :=
  (varKeys a.assignments).Nodup ∧ ∀ v ∈ varKeys a.assignments, v ∈ V

theorem lookupVar_isSome_iff {l : List (Int × Assignment)} {v : Int} :
    (lookupVar l v).isSome = true ↔ v ∈ varKeys l := by
  induction l with
  | nil => simp [lookupVar, varKeys]
  | cons p rest ih =>
    obtain ⟨k, x⟩ := p
    simp only [varKeys, List.map_cons, List.mem_cons]
    by_cases h : k = v
    · subst h
      simp [lookupVar]
    · rw [show lookupVar ((k, x) :: rest) v = lookupVar rest v by
        simp [lookupVar, h]]
      simp only [varKeys] at ih
      rw [ih]
      constructor
      · exact fun hm => Or.inr hm
      · rintro (rfl | hm)
        · exact absurd rfl h
        · exact hm

theorem lookupVar_eq_none_iff {l : List (Int × Assignment)} {v : Int} :
    lookupVar l v = none ↔ v ∉ varKeys l := by
  rw [← lookupVar_isSome_iff]
  cases lookupVar l v <;> simp

theorem varKeys_filter_sublist (l : List (Int × Assignment))
    (p : Int × Assignment → Bool) :
    List.Sublist (varKeys (l.filter p)) (varKeys l) :=
  (List.filter_sublist l).map Prod.fst

theorem not_mem_varKeys_filter_ne (l : List (Int × Assignment)) (v : Int) :
    v ∉ varKeys (l.filter fun p => p.1 != v) := by
  intro hm
  simp only [varKeys, List.mem_map] at hm
  obtain ⟨p, hp, hpv⟩ := hm
  have hpred := List.of_mem_filter hp
  rw [hpv] at hpred
  simp at hpred

theorem varKeys_assign_nodup (a : Assignments) (v : Int) (val : Bool)
    (ant : Option Clause) (h : (varKeys a.assignments).Nodup) :
    (varKeys (a.assign v val ant).assignments).Nodup := by
  simp only [Assignments.assign, varKeys, List.map_cons]
  exact List.nodup_cons.mpr
    ⟨not_mem_varKeys_filter_ne a.assignments v,
     (varKeys_filter_sublist a.assignments _).nodup h⟩

theorem varKeys_assign_mem (a : Assignments) (v : Int) (val : Bool)
    (ant : Option Clause) :
    ∀ w ∈ varKeys (a.assign v val ant).assignments,
      w = v ∨ w ∈ varKeys a.assignments := by
  intro w hw
  simp only [Assignments.assign, varKeys, List.map_cons, List.mem_cons] at hw
  rcases hw with rfl | hw
  · exact Or.inl rfl
  · exact Or.inr ((varKeys_filter_sublist a.assignments _).subset hw)

theorem keysOK_assign {a : Assignments} {V : Finset Int} (h : KeysOK a V)
    (v : Int) (val : Bool) (ant : Option Clause) (hv : v ∈ V) :
    KeysOK (a.assign v val ant) V := by
  refine ⟨varKeys_assign_nodup a v val ant h.1, ?_⟩
  intro w hw
  rcases varKeys_assign_mem a v val ant w hw with rfl | hw
  · exact hv
  · exact h.2 w hw

theorem keysOK_backtrack {a : Assignments} {V : Finset Int} (h : KeysOK a V)
    (b : Int) : KeysOK (backtrack a b) V := by
  refine ⟨(varKeys_filter_sublist a.assignments _).nodup h.1, ?_⟩
  intro w hw
  exact h.2 w ((varKeys_filter_sublist a.assignments _).subset hw)

-- characterization of the clause scan

theorem scanClause_all_false (a : Assignments) {lits : List Literal}
    (h : ∀ l ∈ lits, assignedLit a l = true ∧ a.value l = false) :
    ∀ fc ul, scanClause a lits fc ul = .pending (fc + lits.length) ul := by
  induction lits with
  | nil => intro fc ul; simp [scanClause]
  | cons l ls ih =>
    intro fc ul
    obtain ⟨h1, h2⟩ := h l (by simp)
    have hn : ¬ lookupVar a.assignments l.var = none := by
      intro he; simp [assignedLit, he] at h1
    simp only [scanClause]
    rw [if_neg hn, if_neg (by simp [h2])]
    rw [ih (fun x hx => h x (List.mem_cons_of_mem _ hx)) (fc + 1) ul]
    congr 1
    simp only [List.length_cons]
    omega

theorem scanClause_pending_bound (a : Assignments) :
    ∀ (lits : List Literal) (fc : Nat) (ul : Option Literal) {fc' : Nat}
      {ul' : Option Literal},
    scanClause a lits fc ul = .pending fc' ul' →
    fc' ≤ fc + lits.length ∧
      (fc' = fc + lits.length →
        (∀ l ∈ lits, assignedLit a l = true ∧ a.value l = false) ∧ ul' = ul) := by
  intro lits
  induction lits with
  | nil =>
    intro fc ul fc' ul' h
    simp only [scanClause] at h
    cases h
    exact ⟨by simp, fun _ => ⟨by simp, rfl⟩⟩
  | cons l ls ih =>
    intro fc ul fc' ul' h
    have hlen : (l :: ls).length = ls.length + 1 := rfl
    simp only [scanClause] at h
    by_cases h1 : lookupVar a.assignments l.var = none
    · rw [if_pos h1] at h
      have hb := ih fc (some l) h
      have hb1 := hb.1
      refine ⟨by omega, fun heq => ?_⟩
      omega
    · rw [if_neg h1] at h
      by_cases h2 : a.value l = true
      · rw [if_pos h2] at h
        simp at h
      · rw [if_neg h2] at h
        have hb := ih (fc + 1) ul h
        have hb1 := hb.1
        refine ⟨by omega, fun heq => ?_⟩
        have h3 := hb.2 (by omega)
        refine ⟨?_, h3.2⟩
        intro x hx
        rcases List.mem_cons.mp hx with rfl | hx'
        · refine ⟨?_, ?_⟩
          · simp only [assignedLit]
            exact Option.ne_none_iff_isSome.mp h1
          · simpa using h2
        · exact h3.1 x hx'

theorem scanClause_satisfied (a : Assignments) :
    ∀ (lits : List Literal) (fc : Nat) (ul : Option Literal),
    scanClause a lits fc ul = .satisfied →
    ∃ l ∈ lits, assignedLit a l = true ∧ a.value l = true := by
  intro lits
  induction lits with
  | nil => intro fc ul h; simp [scanClause] at h
  | cons l ls ih =>
    intro fc ul h
    simp only [scanClause] at h
    by_cases h1 : lookupVar a.assignments l.var = none
    · rw [if_pos h1] at h
      obtain ⟨x, hx, hp⟩ := ih _ _ h
      exact ⟨x, List.mem_cons_of_mem _ hx, hp⟩
    · rw [if_neg h1] at h
      by_cases h2 : a.value l = true
      · refine ⟨l, by simp, ?_, h2⟩
        simp only [assignedLit]
        exact Option.ne_none_iff_isSome.mp h1
      · rw [if_neg h2] at h
        obtain ⟨x, hx, hp⟩ := ih _ _ h
        exact ⟨x, List.mem_cons_of_mem _ hx, hp⟩

theorem scanClause_unit (a : Assignments) :
    ∀ (lits : List Literal) (l0 : Literal) (fc : Nat) (ul : Option Literal),
    (lits.filter fun l => !assignedLit a l) = [l0] →
    (∀ l ∈ lits, assignedLit a l = true → a.value l = false) →
    scanClause a lits fc ul = .pending (fc + (lits.length - 1)) (some l0) := by
  intro lits
  induction lits with
  | nil => intro l0 fc ul h _; simp at h
  | cons l ls ih =>
    intro l0 fc ul hf hv
    have hlen : (l :: ls).length = ls.length + 1 := rfl
    by_cases h1 : assignedLit a l = true
    · have hf' : (ls.filter fun x => !assignedLit a x) = [l0] := by
        rw [List.filter_cons, if_neg (by simp [h1])] at hf
        exact hf
      have hval : a.value l = false := hv l (by simp) h1
      have hne : ls ≠ [] := by
        intro he; rw [he] at hf'; simp at hf'
      have hlpos : 0 < ls.length := List.length_pos.mpr hne
      have hn : ¬ lookupVar a.assignments l.var = none := by
        intro he; simp [assignedLit, he] at h1
      simp only [scanClause]
      rw [if_neg hn, if_neg (by simp [hval])]
      rw [ih l0 (fc + 1) ul hf' (fun x hx hax => hv x (List.mem_cons_of_mem _ hx) hax)]
      congr 1
      omega
    · have hlk : lookupVar a.assignments l.var = none := by
        cases hlo : lookupVar a.assignments l.var with
        | none => rfl
        | some x => exact absurd (by simp [assignedLit, hlo]) h1
      have hcons : l = l0 ∧ (ls.filter fun x => !assignedLit a x) = [] := by
        rw [List.filter_cons, if_pos (by simp [Bool.not_eq_true] at h1 ⊢; exact h1)] at hf
        exact ⟨List.head_eq_of_cons_eq hf, List.tail_eq_of_cons_eq hf⟩
      obtain ⟨rfl, hnil⟩ := hcons
      have hall : ∀ x ∈ ls, assignedLit a x = true ∧ a.value x = false := by
        intro x hx
        have hax : assignedLit a x = true := by
          by_contra hc
          have hmem : x ∈ ls.filter fun y => !assignedLit a y :=
            List.mem_filter.mpr ⟨hx, by simp [Bool.not_eq_true] at hc ⊢; exact hc⟩
          rw [hnil] at hmem
          cases hmem
        exact ⟨hax, hv x (List.mem_cons_of_mem _ hx) hax⟩
      simp only [scanClause]
      rw [if_pos hlk]
      rw [scanClause_all_false a hall fc (some l)]
      congr 1

theorem scanClause_ul (a : Assignments) :
    ∀ (lits : List Literal) (fc : Nat) (ul : Option Literal) {fc' : Nat}
      {l : Literal},
    scanClause a lits fc ul = .pending fc' (some l) →
    ul = some l ∨ (l ∈ lits ∧ lookupVar a.assignments l.var = none) := by
  intro lits
  induction lits with
  | nil =>
    intro fc ul fc' l h
    simp only [scanClause] at h
    cases h
    exact Or.inl rfl
  | cons x ls ih =>
    intro fc ul fc' l h
    simp only [scanClause] at h
    by_cases h1 : lookupVar a.assignments x.var = none
    · rw [if_pos h1] at h
      rcases ih _ _ h with he | ⟨hm, hl⟩
      · cases he
        exact Or.inr ⟨by simp, h1⟩
      · exact Or.inr ⟨List.mem_cons_of_mem _ hm, hl⟩
    · rw [if_neg h1] at h
      by_cases h2 : a.value x = true
      · rw [if_pos h2] at h; simp at h
      · rw [if_neg h2] at h
        rcases ih _ _ h with he | ⟨hm, hl⟩
        · exact Or.inl he
        · exact Or.inr ⟨List.mem_cons_of_mem _ hm, hl⟩

theorem falsifiedBy_iff {c : Clause} {a : Assignments} :
    c.falsifiedBy a = true ↔
      ∀ l ∈ c.literals, assignedLit a l = true ∧ a.value l = false := by
  simp [Clause.falsifiedBy, List.all_eq_true, Bool.and_eq_true, Bool.not_eq_true']

theorem unitIn_iff {c : Clause} {a : Assignments} :
    c.unitIn a = true ↔
      (c.literals.filter fun l => !assignedLit a l).length = 1 ∧
        ∀ l ∈ c.literals.filter (fun l => assignedLit a l), a.value l = false := by
  simp only [Clause.unitIn, Bool.and_eq_true, beq_iff_eq, List.all_eq_true,
    Bool.not_eq_true']

-- step lemmas for one pass of the clause loop

theorem passClauses_cons_satisfied {a : Assignments} {fin : Bool} {c : Clause}
    {cs : List Clause} (h : scanClause a c.literals 0 none = .satisfied) :
    passClauses a fin (c :: cs) = passClauses a fin cs := by
  simp only [passClauses, h]

theorem passClauses_cons_unit {a : Assignments} {fin : Bool} {c : Clause}
    {cs : List Clause} {fc : Nat} {l : Literal}
    (h : scanClause a c.literals 0 none = .pending fc (some l))
    (h1 : fc = c.literals.length - 1) :
    passClauses a fin (c :: cs) =
      passClauses (a.assign l.var (!l.negation) (some c)) false cs := by
  simp only [passClauses, h]
  rw [if_pos h1]

theorem passClauses_cons_conflict_some {a : Assignments} {fin : Bool}
    {c : Clause} {cs : List Clause} {fc : Nat} {l : Literal}
    (h : scanClause a c.literals 0 none = .pending fc (some l))
    (h1 : ¬ fc = c.literals.length - 1) (h2 : fc = c.literals.length) :
    passClauses a fin (c :: cs) = .conflict c a := by
  simp only [passClauses, h]
  rw [if_neg h1, if_pos h2]

theorem passClauses_cons_skip_some {a : Assignments} {fin : Bool} {c : Clause}
    {cs : List Clause} {fc : Nat} {l : Literal}
    (h : scanClause a c.literals 0 none = .pending fc (some l))
    (h1 : ¬ fc = c.literals.length - 1) (h2 : ¬ fc = c.literals.length) :
    passClauses a fin (c :: cs) = passClauses a fin cs := by
  simp only [passClauses, h]
  rw [if_neg h1, if_neg h2]

theorem passClauses_cons_conflict_none {a : Assignments} {fin : Bool}
    {c : Clause} {cs : List Clause} {fc : Nat}
    (h : scanClause a c.literals 0 none = .pending fc none)
    (h2 : fc = c.literals.length) :
    passClauses a fin (c :: cs) = .conflict c a := by
  simp only [passClauses, h]
  rw [if_pos h2]

theorem passClauses_cons_skip_none {a : Assignments} {fin : Bool} {c : Clause}
    {cs : List Clause} {fc : Nat}
    (h : scanClause a c.literals 0 none = .pending fc none)
    (h2 : ¬ fc = c.literals.length) :
    passClauses a fin (c :: cs) = passClauses a fin cs := by
  simp only [passClauses, h]
  rw [if_neg h2]

/-- Once `finish` is cleared it stays cleared for the rest of the pass. -/
theorem passClauses_false_finish (cls : List Clause) :
    ∀ (a : Assignments) {a' : Assignments} {fin' : Bool},
    passClauses a false cls = .done a' fin' → fin' = false := by
  induction cls with
  | nil =>
    intro a a' fin' h
    simp only [passClauses] at h
    cases h
    rfl
  | cons c cs ih =>
    intro a a' fin' h
    rcases hscan : scanClause a c.literals 0 none with _ | ⟨fc, ul⟩
    · rw [passClauses_cons_satisfied hscan] at h
      exact ih a h
    · cases ul with
      | some l =>
        by_cases h1 : fc = c.literals.length - 1
        · rw [passClauses_cons_unit hscan h1] at h
          exact ih _ h
        · by_cases h2 : fc = c.literals.length
          · rw [passClauses_cons_conflict_some hscan h1 h2] at h
            simp at h
          · rw [passClauses_cons_skip_some hscan h1 h2] at h
            exact ih a h
      | none =>
        by_cases h2 : fc = c.literals.length
        · rw [passClauses_cons_conflict_none hscan h2] at h
          simp at h
        · rw [passClauses_cons_skip_none hscan h2] at h
          exact ih a h

/-- A pass aborts with `conflict c` only for a clause of the list that is
fully falsified under the trail returned with it. -/
theorem passClauses_conflict (cls : List Clause) :
    ∀ (a : Assignments) (fin : Bool) {c : Clause} {a' : Assignments},
    passClauses a fin cls = .conflict c a' →
    c ∈ cls ∧ c.falsifiedBy a' = true := by
  induction cls with
  | nil => intro a fin c a' h; simp [passClauses] at h
  | cons c0 cs ih =>
    intro a fin c a' h
    rcases hscan : scanClause a c0.literals 0 none with _ | ⟨fc, ul⟩
    · rw [passClauses_cons_satisfied hscan] at h
      obtain ⟨hm, hf⟩ := ih a fin h
      exact ⟨List.mem_cons_of_mem _ hm, hf⟩
    · cases ul with
      | some l =>
        by_cases h1 : fc = c0.literals.length - 1
        · rw [passClauses_cons_unit hscan h1] at h
          obtain ⟨hm, hf⟩ := ih _ false h
          exact ⟨List.mem_cons_of_mem _ hm, hf⟩
        · by_cases h2 : fc = c0.literals.length
          · exfalso
            have hb := scanClause_pending_bound a c0.literals 0 none hscan
            have h3 := (hb.2 (by omega)).2
            simp at h3
          · rw [passClauses_cons_skip_some hscan h1 h2] at h
            obtain ⟨hm, hf⟩ := ih a fin h
            exact ⟨List.mem_cons_of_mem _ hm, hf⟩
      | none =>
        by_cases h2 : fc = c0.literals.length
        · rw [passClauses_cons_conflict_none hscan h2] at h
          cases h
          have hb := scanClause_pending_bound a c0.literals 0 none hscan
          have h3 := (hb.2 (by omega)).1
          refine ⟨by simp, ?_⟩
          rw [falsifiedBy_iff]
          exact h3
        · rw [passClauses_cons_skip_none hscan h2] at h
          obtain ⟨hm, hf⟩ := ih a fin h
          exact ⟨List.mem_cons_of_mem _ hm, hf⟩

/-- A pass that ends with `finish` still set made no assignment and saw no
falsified and no unit clause. -/
theorem passClauses_done_true (cls : List Clause) :
    ∀ (a : Assignments) (fin : Bool) {a' : Assignments},
    passClauses a fin cls = .done a' true →
    a' = a ∧ ∀ c ∈ cls, c.falsifiedBy a = false ∧ c.unitIn a = false := by
  induction cls with
  | nil =>
    intro a fin a' h
    simp only [passClauses] at h
    cases h
    exact ⟨rfl, by simp⟩
  | cons c0 cs ih =>
    intro a fin a' h
    rcases hscan : scanClause a c0.literals 0 none with _ | ⟨fc, ul⟩
    · rw [passClauses_cons_satisfied hscan] at h
      have hia := ih a fin h
      have hrest := hia.2
      obtain ⟨lw, hlw, hla, hlv⟩ := scanClause_satisfied a _ _ _ hscan
      refine ⟨hia.1, ?_⟩
      intro c hc
      rcases List.mem_cons.mp hc with rfl | hc'
      · constructor
        · rw [← Bool.not_eq_true]
          intro hcf
          have hp := (falsifiedBy_iff.mp hcf) lw hlw
          rw [hlv] at hp
          simp at hp
        · rw [← Bool.not_eq_true]
          intro hcu
          have hp := (unitIn_iff.mp hcu).2 lw (List.mem_filter.mpr ⟨hlw, hla⟩)
          rw [hlv] at hp
          simp at hp
      · exact hrest c hc'
    · cases ul with
      | some l =>
        by_cases h1 : fc = c0.literals.length - 1
        · rw [passClauses_cons_unit hscan h1] at h
          exact absurd (passClauses_false_finish cs _ h) (by simp)
        · by_cases h2 : fc = c0.literals.length
          · rw [passClauses_cons_conflict_some hscan h1 h2] at h
            simp at h
          · rw [passClauses_cons_skip_some hscan h1 h2] at h
            have hia := ih a fin h
            have hrest := hia.2
            refine ⟨hia.1, ?_⟩
            intro c hc
            rcases List.mem_cons.mp hc with rfl | hc'
            · constructor
              · rw [← Bool.not_eq_true]
                intro hcf
                have hs := scanClause_all_false a (falsifiedBy_iff.mp hcf) 0 none
                rw [hscan] at hs
                simp at hs
              · rw [← Bool.not_eq_true]
                intro hcu
                obtain ⟨hone, hvals⟩ := unitIn_iff.mp hcu
                obtain ⟨l0, hl0⟩ := List.length_eq_one.mp hone
                have hvv : ∀ x ∈ c.literals, assignedLit a x = true → a.value x = false := by
                  intro x hx hax
                  exact hvals x (List.mem_filter.mpr ⟨hx, hax⟩)
                have hs := scanClause_unit a c.literals l0 0 none hl0 hvv
                rw [hscan] at hs
                cases hs
                exact h1 (by omega)
            · exact hrest c hc'
      | none =>
        by_cases h2 : fc = c0.literals.length
        · rw [passClauses_cons_conflict_none hscan h2] at h
          simp at h
        · rw [passClauses_cons_skip_none hscan h2] at h
          have hia := ih a fin h
          have hrest := hia.2
          refine ⟨hia.1, ?_⟩
          intro c hc
          rcases List.mem_cons.mp hc with rfl | hc'
          · constructor
            · rw [← Bool.not_eq_true]
              intro hcf
              have hs := scanClause_all_false a (falsifiedBy_iff.mp hcf) 0 none
              rw [hscan] at hs
              cases hs
              exact h2 (by omega)
            · rw [← Bool.not_eq_true]
              intro hcu
              obtain ⟨hone, hvals⟩ := unitIn_iff.mp hcu
              obtain ⟨l0, hl0⟩ := List.length_eq_one.mp hone
              have hvv : ∀ x ∈ c.literals, assignedLit a x = true → a.value x = false := by
                intro x hx hax
                exact hvals x (List.mem_filter.mpr ⟨hx, hax⟩)
              have hs := scanClause_unit a c.literals l0 0 none hl0 hvv
              rw [hscan] at hs
              simp at hs
          · exact hrest c hc'

/-- A pass only assigns variables occurring in the scanned clauses, so trail
keys stay distinct and inside `V`. -/
theorem passClauses_keysOK {V : Finset Int} (cls : List Clause)
    (hcl : ClauseListVars cls V) :
    ∀ (a : Assignments) (fin : Bool), KeysOK a V →
    KeysOK (passResultTrail (passClauses a fin cls)) V := by
  induction cls with
  | nil => intro a fin h; exact h
  | cons c0 cs ih =>
    have hcl' : ClauseListVars cs V := fun c hc => hcl c (List.mem_cons_of_mem _ hc)
    intro a fin h
    rcases hscan : scanClause a c0.literals 0 none with _ | ⟨fc, ul⟩
    · rw [passClauses_cons_satisfied hscan]
      exact ih hcl' a fin h
    · cases ul with
      | some l =>
        by_cases h1 : fc = c0.literals.length - 1
        · rw [passClauses_cons_unit hscan h1]
          have hl : l ∈ c0.literals := by
            rcases scanClause_ul a c0.literals 0 none hscan with he | ⟨hm, _⟩
            · simp at he
            · exact hm
          exact ih hcl' _ false
            (keysOK_assign h l.var (!l.negation) (some c0) (hcl c0 (by simp) l hl))
        · by_cases h2 : fc = c0.literals.length
          · rw [passClauses_cons_conflict_some hscan h1 h2]
            exact h
          · rw [passClauses_cons_skip_some hscan h1 h2]
            exact ih hcl' a fin h
      | none =>
        by_cases h2 : fc = c0.literals.length
        · rw [passClauses_cons_conflict_none hscan h2]
          exact h
        · rw [passClauses_cons_skip_none hscan h2]
          exact ih hcl' a fin h

theorem upLoop_succ_conflict {cls : List Clause} {a a' : Assignments}
    {c : Clause} {n : Nat} (h : passClauses a true cls = .conflict c a') :
    upLoop cls a (n + 1) = some (some c, a') := by
  simp only [upLoop, h]

theorem upLoop_succ_done_true {cls : List Clause} {a a' : Assignments}
    {n : Nat} (h : passClauses a true cls = .done a' true) :
    upLoop cls a (n + 1) = some (none, a') := by
  simp only [upLoop, h]

theorem upLoop_succ_done_false {cls : List Clause} {a a' : Assignments}
    {n : Nat} (h : passClauses a true cls = .done a' false) :
    upLoop cls a (n + 1) = upLoop cls a' n := by
  simp only [upLoop, h]

/-- Fact: `unit_propagation` reports a conflict only for a clause of the list that
is fully falsified under the trail it returns. -/
theorem upLoop_conflict (cls : List Clause) :
    ∀ (fuel : Nat) (a : Assignments) {c : Clause} {a' : Assignments},
    upLoop cls a fuel = some (some c, a') →
    c ∈ cls ∧ c.falsifiedBy a' = true := by
  intro fuel
  induction fuel with
  | zero => intro a c a' h; simp [upLoop] at h
  | succ n ih =>
    intro a c a' h
    rcases hp : passClauses a true cls with ⟨c0, a0⟩ | ⟨a0, fin⟩
    · rw [upLoop_succ_conflict hp] at h
      simp only [Option.some.injEq, Prod.mk.injEq] at h
      obtain ⟨h1, h2⟩ := h
      cases h1
      cases h2
      exact passClauses_conflict cls a true hp
    · cases fin with
      | true =>
        rw [upLoop_succ_done_true hp] at h
        simp at h
      | false =>
        rw [upLoop_succ_done_false hp] at h
        exact ih a0 h

/-- Fact: `unit_propagation` returns `unresolved` only when the final trail
is a fixed point: no clause falsified, no clause unit. -/
theorem upLoop_unresolved (cls : List Clause) :
    ∀ (fuel : Nat) (a : Assignments) {a' : Assignments},
    upLoop cls a fuel = some (none, a') →
    ∀ c ∈ cls, c.falsifiedBy a' = false ∧ c.unitIn a' = false := by
  intro fuel
  induction fuel with
  | zero => intro a a' h; simp [upLoop] at h
  | succ n ih =>
    intro a a' h
    rcases hp : passClauses a true cls with ⟨c0, a0⟩ | ⟨a0, fin⟩
    · rw [upLoop_succ_conflict hp] at h
      simp at h
    · cases fin with
      | true =>
        rw [upLoop_succ_done_true hp] at h
        simp only [Option.some.injEq, Prod.mk.injEq] at h
        cases h.2
        have hd := passClauses_done_true cls a true hp
        rw [hd.1]
        exact hd.2
      | false =>
        rw [upLoop_succ_done_false hp] at h
        exact ih a0 h

/-- Fact: `unit_propagation` keeps trail keys distinct and inside the variable
set covering its clauses. -/
theorem upLoop_keysOK {V : Finset Int} (cls : List Clause)
    (hcl : ClauseListVars cls V) :
    ∀ (fuel : Nat) (a : Assignments), KeysOK a V →
    ∀ {r : Option Clause} {a' : Assignments},
    upLoop cls a fuel = some (r, a') → KeysOK a' V := by
  intro fuel
  induction fuel with
  | zero => intro a _ r a' h; simp [upLoop] at h
  | succ n ih =>
    intro a hk r a' h
    rcases hp : passClauses a true cls with ⟨c0, a0⟩ | ⟨a0, fin⟩
    · rw [upLoop_succ_conflict hp] at h
      simp only [Option.some.injEq, Prod.mk.injEq] at h
      cases h.2
      have := passClauses_keysOK cls hcl a true hk
      rw [hp] at this
      exact this
    · cases fin with
      | true =>
        rw [upLoop_succ_done_true hp] at h
        simp only [Option.some.injEq, Prod.mk.injEq] at h
        cases h.2
        have := passClauses_keysOK cls hcl a true hk
        rw [hp] at this
        exact this
      | false =>
        rw [upLoop_succ_done_false hp] at h
        have := passClauses_keysOK cls hcl a true hk
        rw [hp] at this
        exact ih a0 this h

theorem litFold_mem_mono (lits : List Literal) (s : Finset Int) (v : Int)
    (h : v ∈ s) : v ∈ lits.foldr (fun l t => insert l.var t) s := by
  induction lits with
  | nil => exact h
  | cons x xs ih => exact Finset.mem_insert_of_mem ih

theorem litFold_mem_self (lits : List Literal) (s : Finset Int) :
    ∀ l ∈ lits, l.var ∈ lits.foldr (fun x t => insert x.var t) s := by
  induction lits with
  | nil => intro l hl; cases hl
  | cons x xs ih =>
    intro l hl
    rcases List.mem_cons.mp hl with rfl | hl'
    · exact Finset.mem_insert_self _ _
    · exact Finset.mem_insert_of_mem (ih l hl')

/-- The constructor-computed variable set covers every literal of every
clause. -/
theorem clausesVars_covers (cls : List Clause) :
    ClauseListVars cls (clausesVars cls) := by
  induction cls with
  | nil => intro c hc; cases hc
  | cons c0 cs ih =>
    intro c hc
    rcases List.mem_cons.mp hc with rfl | hc'
    · exact litFold_mem_self c.literals _
    · intro l hl
      exact litFold_mem_mono c0.literals _ _ (ih c hc' l hl)

theorem mkFormula_covers (cls : List Clause) :
    ClauseListVars (mkFormula cls).clauses (mkFormula cls).vars :=
  clausesVars_covers cls

/-- With distinct keys inside the variable set, the size comparison of
`all_variables_assigned` succeeding forces the key set to be the whole
variable set. -/
theorem all_assigned_toFinset {V : Finset Int} {f : Formula} {a : Assignments}
    (hv : f.vars = V) (hk : KeysOK a V)
    (h : all_variables_assigned f a = true) :
    (varKeys a.assignments).toFinset = V := by
  simp only [all_variables_assigned, Formula.get_variables, Assignments.size,
    beq_iff_eq, hv] at h
  have hsub : (varKeys a.assignments).toFinset ⊆ V := fun v hvm =>
    hk.2 v (List.mem_toFinset.mp hvm)
  have hlen : (varKeys a.assignments).toFinset.card =
      (varKeys a.assignments).length := List.toFinset_card_of_nodup hk.1
  have hklen : (varKeys a.assignments).length = a.assignments.length :=
    List.length_map _ _
  exact (Finset.eq_of_subset_of_card_le hsub (by omega)).symm ▸ rfl

/-- If the size comparison fails, some formula variable is unassigned. -/
theorem exists_unassigned {V : Finset Int} {f : Formula} {a : Assignments}
    (hv : f.vars = V) (hk : KeysOK a V)
    (h : all_variables_assigned f a = false) :
    ∃ v ∈ V, lookupVar a.assignments v = none := by
  by_contra hc
  push_neg at hc
  have hsup : V ⊆ (varKeys a.assignments).toFinset := by
    intro v hvm
    have hne := hc v hvm
    have : (lookupVar a.assignments v).isSome = true :=
      Option.ne_none_iff_isSome.mp hne
    exact List.mem_toFinset.mpr (lookupVar_isSome_iff.mp this)
  have hsub : (varKeys a.assignments).toFinset ⊆ V := fun v hvm =>
    hk.2 v (List.mem_toFinset.mp hvm)
  have heq : (varKeys a.assignments).toFinset = V :=
    subset_antisymm hsub hsup
  have hlen : (varKeys a.assignments).toFinset.card =
      (varKeys a.assignments).length := List.toFinset_card_of_nodup hk.1
  have hklen : (varKeys a.assignments).length = a.assignments.length :=
    List.length_map _ _
  simp only [all_variables_assigned, Formula.get_variables, Assignments.size,
    beq_eq_false_iff_ne, hv, ne_eq] at h
  rw [← heq] at h
  omega

/-- When some formula variable is unassigned, `pick_branching_variable`
returns a formula variable (whatever the random draws are). -/
theorem pick_branching_variable_mem {V : Finset Int} {f : Formula}
    {a : Assignments} (r : Nat × Bool) (hv : f.vars = V) (hk : KeysOK a V)
    (h : all_variables_assigned f a = false) :
    (pick_branching_variable f a r).1 ∈ V := by
  obtain ⟨v0, hv0, hl0⟩ := exists_unassigned hv hk h
  unfold pick_branching_variable
  set lst := (f.get_variables.sort (· ≤ ·)).filter
    fun v => (lookupVar a.assignments v).isNone with hlst
  have hv0m : v0 ∈ lst := by
    rw [hlst]
    refine List.mem_filter.mpr ⟨?_, by simp [hl0]⟩
    rw [Finset.mem_sort]
    rw [Formula.get_variables, hv]
    exact hv0
  have hlen : 0 < lst.length := List.length_pos.mpr (List.ne_nil_of_mem hv0m)
  have hidx : r.1 % lst.length < lst.length := Nat.mod_lt _ hlen
  have hget : lst[r.1 % lst.length]? = some lst[r.1 % lst.length] :=
    List.getElem?_eq_getElem hidx
  simp only [hget, Option.getD_some]
  have hmem : lst[r.1 % lst.length] ∈ lst := List.getElem_mem hidx
  have hsubV : ∀ y ∈ lst, y ∈ V := by
    intro y hy
    rw [hlst] at hy
    have := (List.mem_filter.mp hy).1
    rw [Finset.mem_sort] at this
    rw [Formula.get_variables, hv] at this
    exact this
  exact hsubV _ hmem

/-- At a propagation fixed point with every variable assigned, the formula is
satisfied. -/
theorem satisfy_of_fixedPoint {V : Finset Int} {f : Formula} {a : Assignments}
    (hv : f.vars = V) (hclv : ClauseListVars f.clauses V) (hk : KeysOK a V)
    (hall : all_variables_assigned f a = true)
    (hfp : ∀ c ∈ f.clauses, c.falsifiedBy a = false) :
    a.satisfy f = true := by
  have htf := all_assigned_toFinset hv hk hall
  rw [Assignments.satisfy, List.all_eq_true]
  intro c hc
  rw [List.any_eq_true]
  have hassigned : ∀ l ∈ c.literals, assignedLit a l = true := by
    intro l hl
    have hmem : l.var ∈ (varKeys a.assignments).toFinset := by
      rw [htf]
      exact hclv c hc l hl
    simp only [assignedLit]
    exact lookupVar_isSome_iff.mpr (List.mem_toFinset.mp hmem)
  by_contra hcon
  push_neg at hcon
  have hfals : c.falsifiedBy a = true := by
    refine falsifiedBy_iff.mpr fun l hl => ⟨hassigned l hl, ?_⟩
    have := hcon l hl
    simpa using this
  rw [hfp c hc] at hfals
  cases hfals

/-- Satisfaction restricts to any formula whose clauses all occur in the
satisfied one. -/
theorem satisfy_of_superset {a : Assignments} {f g : Formula}
    (hsub : ∀ c ∈ f.clauses, c ∈ g.clauses) (h : a.satisfy g = true) :
    a.satisfy f = true := by
  rw [Assignments.satisfy, List.all_eq_true] at h ⊢
  intro c hc
  exact h c (hsub c hc)

theorem conflict_analysis_snd (c : Clause) (a : Assignments) :
    (conflict_analysis c a).2 = c := by
  unfold conflict_analysis
  split <;> rfl

-- step lemmas for the two solver loops

theorem innerLoop_succ_none {f : Formula} {a : Assignments} {n : Nat}
    (h : unit_propagation f a (n + 1) = none) :
    innerLoop f a (n + 1) = none := by
  simp only [innerLoop, h]

theorem innerLoop_succ_unresolved {f : Formula} {a a' : Assignments} {n : Nat}
    (h : unit_propagation f a (n + 1) = some (none, a')) :
    innerLoop f a (n + 1) = some (f, some a') := by
  simp only [innerLoop, h]

theorem innerLoop_succ_conflict_unsat {f : Formula} {a a' : Assignments}
    {c : Clause} {n : Nat} (h : unit_propagation f a (n + 1) = some (some c, a'))
    (hb : (conflict_analysis c a').1 < 0) :
    innerLoop f a (n + 1) = some (f, none) := by
  simp only [innerLoop, h]
  rw [if_pos hb]

theorem innerLoop_succ_conflict_learn {f : Formula} {a a' : Assignments}
    {c : Clause} {n : Nat} (h : unit_propagation f a (n + 1) = some (some c, a'))
    (hb : ¬ (conflict_analysis c a').1 < 0) :
    innerLoop f a (n + 1) =
      innerLoop { f with clauses := f.clauses ++ [(conflict_analysis c a').2] }
        { backtrack a' (conflict_analysis c a').1 with
            dl := (conflict_analysis c a').1 } n := by
  simp only [innerLoop, h]
  rw [if_neg hb]

theorem outerLoop_succ_sat {ch : Nat → Formula → Assignments → Int × Bool}
    {k n : Nat} {f : Formula} {a : Assignments}
    (h : all_variables_assigned f a = true) :
    outerLoop ch k f a (n + 1) = some (f, some a) := by
  simp only [outerLoop]
  rw [if_pos h]

theorem outerLoop_succ_inner_none {ch : Nat → Formula → Assignments → Int × Bool}
    {k n : Nat} {f : Formula} {a : Assignments}
    (hall : all_variables_assigned f a = false)
    (hin : innerLoop f (decide_step (ch k f a) a) (n + 1) = none) :
    outerLoop ch k f a (n + 1) = none := by
  simp only [outerLoop]
  rw [if_neg (by simp [hall]), hin]

theorem outerLoop_succ_inner_unsat {ch : Nat → Formula → Assignments → Int × Bool}
    {k n : Nat} {f f2 : Formula} {a : Assignments}
    (hall : all_variables_assigned f a = false)
    (hin : innerLoop f (decide_step (ch k f a) a) (n + 1) = some (f2, none)) :
    outerLoop ch k f a (n + 1) = some (f2, none) := by
  simp only [outerLoop]
  rw [if_neg (by simp [hall]), hin]

theorem outerLoop_succ_inner_cont {ch : Nat → Formula → Assignments → Int × Bool}
    {k n : Nat} {f f2 : Formula} {a a2 : Assignments}
    (hall : all_variables_assigned f a = false)
    (hin : innerLoop f (decide_step (ch k f a) a) (n + 1) = some (f2, some a2)) :
    outerLoop ch k f a (n + 1) = outerLoop ch (k + 1) f2 a2 n := by
  simp only [outerLoop]
  rw [if_neg (by simp [hall]), hin]

/-- Invariant preservation and fixed-point facts carried by the inner
(conflict) loop. -/
theorem innerLoop_master {V : Finset Int} :
    ∀ (fuel : Nat) (f : Formula) (a : Assignments) {f' : Formula}
      {r : Option Assignments},
    f.vars = V → ClauseListVars f.clauses V → KeysOK a V →
    innerLoop f a fuel = some (f', r) →
    (∃ L, f'.clauses = f.clauses ++ L) ∧ f'.vars = V ∧
      ClauseListVars f'.clauses V ∧
      ∀ a2, r = some a2 → KeysOK a2 V ∧
        ∀ c ∈ f'.clauses, c.falsifiedBy a2 = false := by
  intro fuel
  induction fuel with
  | zero => intro f a f' r _ _ _ h; simp [innerLoop] at h
  | succ n ih =>
    intro f a f' r hv hclv hk h
    rcases hup : unit_propagation f a (n + 1) with _ | ⟨oc, a1⟩
    · rw [innerLoop_succ_none hup] at h
      simp at h
    · have hup' : upLoop f.clauses a (n + 1) = some (oc, a1) := hup
      cases oc with
      | none =>
        rw [innerLoop_succ_unresolved hup] at h
        simp only [Option.some.injEq, Prod.mk.injEq] at h
        obtain ⟨hf, hr⟩ := h
        cases hf
        refine ⟨⟨[], (List.append_nil _).symm⟩, hv, hclv, ?_⟩
        intro a2 ha2
        rw [← hr] at ha2
        simp only [Option.some.injEq] at ha2
        cases ha2
        refine ⟨upLoop_keysOK f.clauses hclv (n + 1) a hk hup', ?_⟩
        intro c hc
        exact (upLoop_unresolved f.clauses (n + 1) a hup' c hc).1
      | some c =>
        by_cases hb : (conflict_analysis c a1).1 < 0
        · rw [innerLoop_succ_conflict_unsat hup hb] at h
          simp only [Option.some.injEq, Prod.mk.injEq] at h
          obtain ⟨hf, hr⟩ := h
          cases hf
          refine ⟨⟨[], (List.append_nil _).symm⟩, hv, hclv, ?_⟩
          intro a2 ha2
          rw [← hr] at ha2
          simp at ha2
        · rw [innerLoop_succ_conflict_learn hup hb] at h
          have hmem : c ∈ f.clauses := (upLoop_conflict f.clauses (n + 1) a hup').1
          have hk1 : KeysOK a1 V := upLoop_keysOK f.clauses hclv (n + 1) a hk hup'
          have hk2 : KeysOK { backtrack a1 (conflict_analysis c a1).1 with
              dl := (conflict_analysis c a1).1 } V :=
            keysOK_backtrack hk1 _
          have hclv2 : ClauseListVars
              (f.clauses ++ [(conflict_analysis c a1).2]) V := by
            rw [conflict_analysis_snd]
            intro c' hc'
            rcases List.mem_append.mp hc' with h1 | h1
            · exact hclv c' h1
            · rw [List.mem_singleton.mp h1]
              exact hclv c hmem
          have hres := ih
            { f with clauses := f.clauses ++ [(conflict_analysis c a1).2] }
            { backtrack a1 (conflict_analysis c a1).1 with
                dl := (conflict_analysis c a1).1 }
            hv hclv2 hk2 h
          obtain ⟨⟨L, hL⟩, hv', hclv', hrpart⟩ := hres
          refine ⟨⟨(conflict_analysis c a1).2 :: L, ?_⟩, hv', hclv', hrpart⟩
          rw [hL]
          simp [List.append_assoc]

/-- Invariant preservation through the decision loop, and the facts holding
at a SAT exit. -/
theorem outerLoop_master {V : Finset Int}
    {ch : Nat → Formula → Assignments → Int × Bool}
    (hch : ∀ (k : Nat) (f : Formula) (a : Assignments), f.vars = V →
      KeysOK a V → all_variables_assigned f a = false → (ch k f a).1 ∈ V) :
    ∀ (fuel k : Nat) (f : Formula) (a : Assignments) {f' : Formula}
      {r : Option Assignments},
    f.vars = V → ClauseListVars f.clauses V → KeysOK a V →
    (∀ c ∈ f.clauses, c.falsifiedBy a = false) →
    outerLoop ch k f a fuel = some (f', r) →
    (∃ L, f'.clauses = f.clauses ++ L) ∧ f'.vars = V ∧
      ∀ A, r = some A → KeysOK A V ∧
        (varKeys A.assignments).toFinset = V ∧ A.satisfy f' = true := by
  intro fuel
  induction fuel with
  | zero => intro k f a f' r _ _ _ _ h; simp [outerLoop] at h
  | succ n ih =>
    intro k f a f' r hv hclv hk hfp h
    by_cases hall : all_variables_assigned f a = true
    · rw [outerLoop_succ_sat hall] at h
      simp only [Option.some.injEq, Prod.mk.injEq] at h
      obtain ⟨hf, hr⟩ := h
      cases hf
      refine ⟨⟨[], (List.append_nil _).symm⟩, hv, ?_⟩
      intro A hA
      rw [← hr] at hA
      simp only [Option.some.injEq] at hA
      cases hA
      exact ⟨hk, all_assigned_toFinset hv hk hall,
        satisfy_of_fixedPoint hv hclv hk hall hfp⟩
    · rw [Bool.not_eq_true] at hall
      have hk1 : KeysOK (decide_step (ch k f a) a) V := by
        have hbase : KeysOK { a with dl := a.dl + 1 } V := hk
        exact keysOK_assign hbase (ch k f a).1 (ch k f a).2 none
          (hch k f a hv hk hall)
      rcases hin : innerLoop f (decide_step (ch k f a) a) (n + 1)
          with _ | ⟨f2, or2⟩
      · rw [outerLoop_succ_inner_none hall hin] at h
        simp at h
      · cases or2 with
        | none =>
          rw [outerLoop_succ_inner_unsat hall hin] at h
          simp only [Option.some.injEq, Prod.mk.injEq] at h
          obtain ⟨hf, hr⟩ := h
          cases hf
          have him := innerLoop_master (n + 1) f _ hv hclv hk1 hin
          refine ⟨him.1, him.2.1, ?_⟩
          intro A hA
          rw [← hr] at hA
          simp at hA
        | some a2 =>
          rw [outerLoop_succ_inner_cont hall hin] at h
          have him := innerLoop_master (n + 1) f _ hv hclv hk1 hin
          obtain ⟨⟨L1, hL1⟩, hv2, hclv2, hr2⟩ := him
          obtain ⟨hk2, hfp2⟩ := hr2 a2 rfl
          have hres := ih (k + 1) f2 a2 hv2 hclv2 hk2 hfp2 h
          obtain ⟨⟨L2, hL2⟩, hv', hrest⟩ := hres
          refine ⟨⟨L1 ++ L2, ?_⟩, hv', hrest⟩
          rw [hL2, hL1, List.append_assoc]

/-- Everything the two claims about the SAT verdict need, established for a
run with any decision policy that picks formula variables. -/
theorem cdclRun_master {V : Finset Int}
    {ch : Nat → Formula → Assignments → Int × Bool}
    (hch : ∀ (k : Nat) (f : Formula) (a : Assignments), f.vars = V →
      KeysOK a V → all_variables_assigned f a = false → (ch k f a).1 ∈ V)
    (f : Formula) (hv : f.vars = V) (hclv : ClauseListVars f.clauses V)
    (fuel : Nat) {f' : Formula} {r : Option Assignments}
    (h : cdclRun ch f fuel = some (f', r)) :
    (∃ L, f'.clauses = f.clauses ++ L) ∧ f'.vars = V ∧
      ∀ A, r = some A → KeysOK A V ∧
        (varKeys A.assignments).toFinset = V ∧
        A.satisfy f' = true ∧ A.satisfy f = true := by
  have hk0 : KeysOK (⟨[], 0⟩ : Assignments) V := by
    constructor <;> simp [varKeys]
  rcases hup : unit_propagation f ⟨[], 0⟩ fuel with _ | ⟨oc, a0⟩
  · rw [cdclRun, hup] at h
    simp at h
  · have hup' : upLoop f.clauses (⟨[], 0⟩ : Assignments) fuel = some (oc, a0) := hup
    cases oc with
    | some c =>
      rw [cdclRun, hup] at h
      simp only [Option.some.injEq, Prod.mk.injEq] at h
      obtain ⟨hf, hr⟩ := h
      cases hf
      refine ⟨⟨[], (List.append_nil _).symm⟩, hv, ?_⟩
      intro A hA
      rw [← hr] at hA
      simp at hA
    | none =>
      rw [cdclRun, hup] at h
      have hk1 : KeysOK a0 V := upLoop_keysOK f.clauses hclv fuel _ hk0 hup'
      have hfp : ∀ c ∈ f.clauses, c.falsifiedBy a0 = false := by
        intro c hc
        exact (upLoop_unresolved f.clauses fuel _ hup' c hc).1
      have hres := outerLoop_master hch fuel 0 f a0 hv hclv hk1 hfp h
      obtain ⟨⟨L, hL⟩, hv', hrest⟩ := hres
      refine ⟨⟨L, hL⟩, hv', ?_⟩
      intro A hA
      obtain ⟨hkA, htf, hsat⟩ := hrest A hA
      refine ⟨hkA, htf, hsat, ?_⟩
      refine satisfy_of_superset ?_ hsat
      intro c hc
      rw [hL]
      exact List.mem_append_left _ hc

/-- An entry whose key is looked up first and that survives a filter is still
the lookup result in the filtered list. -/
theorem lookupVar_filter_of_pred (p : Int × Assignment → Bool) :
    ∀ (l : List (Int × Assignment)) (v : Int) (x : Assignment),
    lookupVar l v = some x → p (v, x) = true →
    lookupVar (l.filter p) v = some x := by
  intro l
  induction l with
  | nil => intro v x h _; simp [lookupVar] at h
  | cons q rest ih =>
    intro v x h hp
    obtain ⟨k, y⟩ := q
    by_cases hk : k = v
    · subst hk
      simp only [lookupVar, if_pos rfl, Option.some.injEq] at h
      cases h
      rw [List.filter_cons, if_pos hp]
      simp [lookupVar]
    · simp only [lookupVar, if_neg hk] at h
      rw [List.filter_cons]
      by_cases hq : p (k, y) = true
      · rw [if_pos hq]
        simp only [lookupVar, if_neg hk]
        exact ih v x h hp
      · rw [if_neg hq]
        exact ih v x h hp

/-- With distinct keys, an entry dropped by a filter is gone from lookup. -/
theorem lookupVar_filter_none_of_pred (p : Int × Assignment → Bool) :
    ∀ (l : List (Int × Assignment)), (varKeys l).Nodup →
    ∀ (v : Int) (x : Assignment), lookupVar l v = some x → p (v, x) = false →
    lookupVar (l.filter p) v = none := by
  intro l
  induction l with
  | nil => intro _ v x h _; simp [lookupVar] at h
  | cons q rest ih =>
    intro hnd v x h hp
    obtain ⟨k, y⟩ := q
    have hnd2 := List.nodup_cons.mp (show (k :: varKeys rest).Nodup from hnd)
    by_cases hk : k = v
    · subst hk
      simp only [lookupVar, if_pos rfl, Option.some.injEq] at h
      cases h
      rw [List.filter_cons, if_neg (by simp [hp])]
      rw [lookupVar_eq_none_iff]
      intro hmem
      exact hnd2.1 ((varKeys_filter_sublist rest p).subset hmem)
    · simp only [lookupVar, if_neg hk] at h
      rw [List.filter_cons]
      by_cases hq : p (k, y) = true
      · rw [if_pos hq]
        simp only [lookupVar, if_neg hk]
        exact ih hnd2.2 v x h hp
      · rw [if_neg hq]
        exact ih hnd2.2 v x h hp

/-- The inner loop only ever appends clauses and leaves the variable set
untouched. -/
theorem innerLoop_clauses :
    ∀ (fuel : Nat) (f : Formula) (a : Assignments) {f' : Formula}
      {r : Option Assignments},
    innerLoop f a fuel = some (f', r) →
    (∃ L, f'.clauses = f.clauses ++ L) ∧ f'.vars = f.vars := by
  intro fuel
  induction fuel with
  | zero => intro f a f' r h; simp [innerLoop] at h
  | succ n ih =>
    intro f a f' r h
    rcases hup : unit_propagation f a (n + 1) with _ | ⟨oc, a1⟩
    · rw [innerLoop_succ_none hup] at h
      simp at h
    · cases oc with
      | none =>
        rw [innerLoop_succ_unresolved hup] at h
        simp only [Option.some.injEq, Prod.mk.injEq] at h
        cases h.1
        exact ⟨⟨[], (List.append_nil _).symm⟩, rfl⟩
      | some c =>
        by_cases hb : (conflict_analysis c a1).1 < 0
        · rw [innerLoop_succ_conflict_unsat hup hb] at h
          simp only [Option.some.injEq, Prod.mk.injEq] at h
          cases h.1
          exact ⟨⟨[], (List.append_nil _).symm⟩, rfl⟩
        · rw [innerLoop_succ_conflict_learn hup hb] at h
          obtain ⟨⟨L, hL⟩, hv⟩ := ih _ _ h
          refine ⟨⟨(conflict_analysis c a1).2 :: L, ?_⟩, hv⟩
          rw [hL]
          simp [List.append_assoc]

/-- The decision loop only ever appends clauses and leaves the variable set
untouched. -/
theorem outerLoop_clauses (ch : Nat → Formula → Assignments → Int × Bool) :
    ∀ (fuel k : Nat) (f : Formula) (a : Assignments) {f' : Formula}
      {r : Option Assignments},
    outerLoop ch k f a fuel = some (f', r) →
    (∃ L, f'.clauses = f.clauses ++ L) ∧ f'.vars = f.vars := by
  intro fuel
  induction fuel with
  | zero => intro k f a f' r h; simp [outerLoop] at h
  | succ n ih =>
    intro k f a f' r h
    by_cases hall : all_variables_assigned f a = true
    · rw [outerLoop_succ_sat hall] at h
      simp only [Option.some.injEq, Prod.mk.injEq] at h
      cases h.1
      exact ⟨⟨[], (List.append_nil _).symm⟩, rfl⟩
    · rw [Bool.not_eq_true] at hall
      rcases hin : innerLoop f (decide_step (ch k f a) a) (n + 1)
          with _ | ⟨f2, or2⟩
      · rw [outerLoop_succ_inner_none hall hin] at h
        simp at h
      · cases or2 with
        | none =>
          rw [outerLoop_succ_inner_unsat hall hin] at h
          simp only [Option.some.injEq, Prod.mk.injEq] at h
          cases h.1
          exact innerLoop_clauses (n + 1) f _ hin
        | some a2 =>
          rw [outerLoop_succ_inner_cont hall hin] at h
          obtain ⟨⟨L1, hL1⟩, hv1⟩ := innerLoop_clauses (n + 1) f _ hin
          obtain ⟨⟨L2, hL2⟩, hv2⟩ := ih (k + 1) f2 a2 h
          refine ⟨⟨L1 ++ L2, ?_⟩, hv2.trans hv1⟩
          rw [hL2, hL1, List.append_assoc]

/-- A whole run only ever appends clauses and leaves the variable set
untouched. -/
theorem cdclRun_clauses (ch : Nat → Formula → Assignments → Int × Bool)
    (f : Formula) (fuel : Nat) {f' : Formula} {r : Option Assignments}
    (h : cdclRun ch f fuel = some (f', r)) :
    (∃ L, f'.clauses = f.clauses ++ L) ∧ f'.vars = f.vars := by
  rcases hup : unit_propagation f ⟨[], 0⟩ fuel with _ | ⟨oc, a0⟩
  · rw [cdclRun, hup] at h
    simp at h
  · cases oc with
    | some c =>
      rw [cdclRun, hup] at h
      simp only [Option.some.injEq, Prod.mk.injEq] at h
      cases h.1
      exact ⟨⟨[], (List.append_nil _).symm⟩, rfl⟩
    | none =>
      rw [cdclRun, hup] at h
      exact outerLoop_clauses ch fuel 0 f a0 h

-- sanity checks on concrete runs (claim scenarios)
example : cdcl_solve (fun _ => (0, true)) (mkFormula [⟨[⟨1, false⟩]⟩]) 2 =
    some (mkFormula [⟨[⟨1, false⟩]⟩],
      some ⟨[(1, ⟨true, some ⟨[⟨1, false⟩]⟩, 0⟩)], 0⟩) := by decide

example : cdcl_solve (fun _ => (0, true))
    (mkFormula [⟨[⟨1, false⟩]⟩, ⟨[⟨1, true⟩]⟩]) 1 =
    some (mkFormula [⟨[⟨1, false⟩]⟩, ⟨[⟨1, true⟩]⟩], none) := by decide

example : cdcl_solve (fun _ => (0, true)) (mkFormula [⟨[]⟩]) 1 =
    some (mkFormula [⟨[]⟩], none) := by decide

-- the claims

/-- C1: whenever `cdcl_solve` returns an assignment (Sat verdict) `A`, `A`
satisfies every clause of the original pre-learning clause set, i.e. every
original clause has a literal evaluating to true under `Assignments::value`.
Quantified over every decision oracle and step budget. -/
theorem cdcl_solve_sound (oracle : Nat → Nat × Bool) (cls : List Clause)
    (fuel : Nat) (f' : Formula) (A : Assignments)
    (h : cdcl_solve oracle (mkFormula cls) fuel = some (f', some A)) :
    A.satisfy (mkFormula cls) = true := by
  have hch : ∀ (k : Nat) (g : Formula) (a : Assignments),
      g.vars = (mkFormula cls).vars → KeysOK a (mkFormula cls).vars →
      all_variables_assigned g a = false →
      ((fun k g a => pick_branching_variable g a (oracle k)) k g a).1 ∈
        (mkFormula cls).vars := by
    intro k g a hv hk hall
    exact pick_branching_variable_mem (oracle k) hv hk hall
  have hres := cdclRun_master hch (mkFormula cls) rfl (mkFormula_covers cls)
    fuel h
  exact ((hres.2.2 A rfl).2.2).2

theorem cdcl_solve_sound_witness :
    Assignments.satisfy ⟨[(1, ⟨true, some ⟨[⟨1, false⟩]⟩, 0⟩)], 0⟩
      (mkFormula [⟨[⟨1, false⟩]⟩]) = true :=
  cdcl_solve_sound (fun _ => (0, true)) [⟨[⟨1, false⟩]⟩] 2
    (mkFormula [⟨[⟨1, false⟩]⟩]) ⟨[(1, ⟨true, some ⟨[⟨1, false⟩]⟩, 0⟩)], 0⟩
    (by decide)

/-- C2: whenever `cdcl_solve` returns an assignment `A`, the domain of `A` is
exactly `formula.get_variables()`: every formula variable has exactly one
trail entry and no entry lies outside the variable set. -/
theorem cdcl_solve_total (oracle : Nat → Nat × Bool) (cls : List Clause)
    (fuel : Nat) (f' : Formula) (A : Assignments)
    (h : cdcl_solve oracle (mkFormula cls) fuel = some (f', some A)) :
    ∀ v : Int, (varKeys A.assignments).count v =
      if v ∈ (mkFormula cls).get_variables then 1 else 0 := by
  have hch : ∀ (k : Nat) (g : Formula) (a : Assignments),
      g.vars = (mkFormula cls).vars → KeysOK a (mkFormula cls).vars →
      all_variables_assigned g a = false →
      ((fun k g a => pick_branching_variable g a (oracle k)) k g a).1 ∈
        (mkFormula cls).vars := by
    intro k g a hv hk hall
    exact pick_branching_variable_mem (oracle k) hv hk hall
  have hres := cdclRun_master hch (mkFormula cls) rfl (mkFormula_covers cls)
    fuel h
  obtain ⟨hkA, htf, _⟩ := hres.2.2 A rfl
  intro v
  by_cases hv : v ∈ (mkFormula cls).get_variables
  · rw [if_pos hv]
    have hmem : v ∈ varKeys A.assignments := by
      have : v ∈ (varKeys A.assignments).toFinset := by
        rw [htf]
        exact hv
      exact List.mem_toFinset.mp this
    exact List.count_eq_one_of_mem hkA.1 hmem
  · rw [if_neg hv]
    rw [List.count_eq_zero]
    intro hmem
    refine hv ?_
    rw [show ((mkFormula cls).get_variables : Finset Int) = (mkFormula cls).vars
      from rfl, ← htf]
    exact List.mem_toFinset.mpr hmem

theorem cdcl_solve_total_witness :
    (varKeys (⟨[(1, ⟨true, some ⟨[⟨1, false⟩]⟩, 0⟩)], 0⟩ :
        Assignments).assignments).count 1 = 1 ∧
    (varKeys (⟨[(1, ⟨true, some ⟨[⟨1, false⟩]⟩, 0⟩)], 0⟩ :
        Assignments).assignments).count 2 = 0 := by
  have h := cdcl_solve_total (fun _ => (0, true)) [⟨[⟨1, false⟩]⟩] 2
    (mkFormula [⟨[⟨1, false⟩]⟩]) ⟨[(1, ⟨true, some ⟨[⟨1, false⟩]⟩, 0⟩)], 0⟩
    (by decide)
  exact ⟨h 1, h 2⟩

/-- C3: `unit_propagation` returns a conflict only for a clause of the
formula all of whose literals are assigned and false under the returned
trail, and returns `unresolved` only when the final trail is a fixed point:
no clause of the formula is unit and none is fully falsified. -/
theorem unit_propagation_contract (f : Formula) (a : Assignments) (fuel : Nat) :
    (∀ (c : Clause) (a' : Assignments),
      unit_propagation f a fuel = some (some c, a') →
      c ∈ f.clauses ∧ c.falsifiedBy a' = true) ∧
    (∀ a' : Assignments,
      unit_propagation f a fuel = some (none, a') →
      ∀ c ∈ f.clauses, c.unitIn a' = false ∧ c.falsifiedBy a' = false) := by
  constructor
  · intro c a' h
    exact upLoop_conflict f.clauses fuel a h
  · intro a' h c hc
    have hfix := upLoop_unresolved f.clauses fuel a h c hc
    exact ⟨hfix.2, hfix.1⟩

theorem unit_propagation_contract_witness :
    Clause.unitIn ⟨[⟨1, false⟩]⟩
        (⟨[(1, ⟨true, some ⟨[⟨1, false⟩]⟩, 0⟩)], 0⟩ : Assignments) = false ∧
    Clause.falsifiedBy ⟨[⟨1, false⟩]⟩
        (⟨[(1, ⟨true, some ⟨[⟨1, false⟩]⟩, 0⟩)], 0⟩ : Assignments) = false :=
  (unit_propagation_contract (mkFormula [⟨[⟨1, false⟩]⟩]) ⟨[], 0⟩ 2).2
    ⟨[(1, ⟨true, some ⟨[⟨1, false⟩]⟩, 0⟩)], 0⟩ (by decide)
    ⟨[⟨1, false⟩]⟩ (by decide)

/-- C4: `conflict_analysis` returns the sentinel level `-1` when the current
decision level is `0`, and otherwise backtrack level `dl - 1` together with a
learned clause equal to the conflicting clause itself. -/
theorem conflict_analysis_spec (c : Clause) (a : Assignments) :
    (a.dl = 0 → conflict_analysis c a = (-1, c)) ∧
    (a.dl ≠ 0 → conflict_analysis c a = (a.dl - 1, c)) := by
  constructor
  · intro h
    simp [conflict_analysis, h]
  · intro h
    simp [conflict_analysis, h]

theorem conflict_analysis_spec_witness :
    conflict_analysis ⟨[]⟩ ⟨[], 0⟩ = (-1, ⟨[]⟩) ∧
    conflict_analysis ⟨[]⟩ ⟨[], 3⟩ = (2, ⟨[]⟩) := by
  constructor
  · exact (conflict_analysis_spec ⟨[]⟩ ⟨[], 0⟩).1 rfl
  · exact (conflict_analysis_spec ⟨[]⟩ ⟨[], 3⟩).2 (by decide)

/-- C5: a conflict in the initial unit propagation on the empty trail makes
`cdcl_solve` return Unsat at once, before any decision; in particular a
formula with an empty clause, and the formula `(1) (¬1)`, both give Unsat. -/
theorem level0_conflict_unsat :
    (∀ (oracle : Nat → Nat × Bool) (f : Formula) (fuel : Nat) (c : Clause)
      (a' : Assignments),
      unit_propagation f ⟨[], 0⟩ fuel = some (some c, a') →
      cdcl_solve oracle f fuel = some (f, none)) ∧
    (∀ oracle : Nat → Nat × Bool,
      cdcl_solve oracle (mkFormula [⟨[]⟩]) 1 = some (mkFormula [⟨[]⟩], none)) ∧
    (∀ oracle : Nat → Nat × Bool,
      cdcl_solve oracle (mkFormula [⟨[⟨1, false⟩]⟩, ⟨[⟨1, true⟩]⟩]) 1 =
        some (mkFormula [⟨[⟨1, false⟩]⟩, ⟨[⟨1, true⟩]⟩], none)) := by
  refine ⟨?_, fun _ => rfl, fun _ => rfl⟩
  intro oracle f fuel c a' h
  rw [cdcl_solve, cdclRun, h]

theorem level0_conflict_unsat_witness :
    cdcl_solve (fun _ => (0, true)) (mkFormula [⟨[]⟩]) 1 =
      some (mkFormula [⟨[]⟩], none) :=
  level0_conflict_unsat.1 (fun _ => (0, true)) (mkFormula [⟨[]⟩]) 1 ⟨[]⟩
    ⟨[], 0⟩ (by decide)

/-- C6: after `backtrack(trail, b)` no entry has decision level above `b`,
every entry at level at most `b` is unchanged (value, level, antecedent), and
entries above `b` are removed entirely rather than invalidated. -/
theorem backtrack_spec (a : Assignments) (b : Int) :
    (∀ p ∈ (backtrack a b).assignments, p.2.dl ≤ b) ∧
    (∀ (v : Int) (x : Assignment), lookupVar a.assignments v = some x →
      x.dl ≤ b → lookupVar (backtrack a b).assignments v = some x) ∧
    ((varKeys a.assignments).Nodup →
      ∀ (v : Int) (x : Assignment), lookupVar a.assignments v = some x →
        b < x.dl → lookupVar (backtrack a b).assignments v = none) := by
  refine ⟨?_, ?_, ?_⟩
  · intro p hp
    have hpred := List.of_mem_filter hp
    simp only [Bool.not_eq_true', decide_eq_false_iff_not, gt_iff_lt,
      not_lt] at hpred
    exact hpred
  · intro v x h hdl
    refine lookupVar_filter_of_pred _ a.assignments v x h ?_
    simp only [Bool.not_eq_true', decide_eq_false_iff_not, gt_iff_lt, not_lt]
    exact hdl
  · intro hnd v x h hdl
    refine lookupVar_filter_none_of_pred _ a.assignments hnd v x h ?_
    simp only [Bool.not_eq_false', decide_eq_true_eq, gt_iff_lt]
    exact hdl

theorem backtrack_spec_witness :
    ((⟨true, none, 0⟩ : Assignment).dl ≤ 1) ∧
    lookupVar (backtrack ⟨[(1, ⟨true, none, 0⟩), (2, ⟨false, none, 2⟩)], 2⟩
      1).assignments 1 = some ⟨true, none, 0⟩ ∧
    lookupVar (backtrack ⟨[(1, ⟨true, none, 0⟩), (2, ⟨false, none, 2⟩)], 2⟩
      1).assignments 2 = none := by
  refine ⟨?_, ?_, ?_⟩
  · exact (backtrack_spec ⟨[(1, ⟨true, none, 0⟩), (2, ⟨false, none, 2⟩)], 2⟩
      1).1 (1, ⟨true, none, 0⟩) (by decide)
  · exact (backtrack_spec ⟨[(1, ⟨true, none, 0⟩), (2, ⟨false, none, 2⟩)], 2⟩
      1).2.1 1 ⟨true, none, 0⟩ (by decide) (by decide)
  · exact (backtrack_spec ⟨[(1, ⟨true, none, 0⟩), (2, ⟨false, none, 2⟩)], 2⟩
      1).2.2 (by decide) 2 ⟨false, none, 2⟩ (by decide) (by decide)

/-- C7: a run of `cdcl_solve` only ever appends clauses: the clause list
after solving is the original list extended by zero or more learned clauses,
so the clause count never decreases. -/
theorem clause_db_monotone (oracle : Nat → Nat × Bool) (f : Formula)
    (fuel : Nat) (f' : Formula) (r : Option Assignments)
    (h : cdcl_solve oracle f fuel = some (f', r)) :
    (∃ L, f'.clauses = f.clauses ++ L) ∧
      f.clauses.length ≤ f'.clauses.length := by
  obtain ⟨⟨L, hL⟩, _⟩ := cdclRun_clauses _ f fuel h
  refine ⟨⟨L, hL⟩, ?_⟩
  rw [hL, List.length_append]
  omega

theorem clause_db_monotone_witness :
    (mkFormula [⟨[⟨1, false⟩]⟩]).clauses.length ≤
      (mkFormula [⟨[⟨1, false⟩]⟩]).clauses.length :=
  (clause_db_monotone (fun _ => (0, true)) (mkFormula [⟨[⟨1, false⟩]⟩]) 2
    (mkFormula [⟨[⟨1, false⟩]⟩])
    (some ⟨[(1, ⟨true, some ⟨[⟨1, false⟩]⟩, 0⟩)], 0⟩) (by decide)).2

/-- C9: with `pick_branching_variable` replaced by a deterministic function
of the formula and trail, two runs of the solver on the same formula agree on
the verdict and, on Sat, on the assignment; branching is the only source of
nondeterminism. -/
theorem solve_deterministic (pick1 pick2 : Formula → Assignments → Int × Bool)
    (f : Formula) (fuel : Nat)
    (h : ∀ (g : Formula) (a : Assignments), pick1 g a = pick2 g a) :
    cdcl_solve_with pick1 f fuel = cdcl_solve_with pick2 f fuel := by
  have hp : pick1 = pick2 := funext fun g => funext fun a => h g a
  rw [hp]

theorem solve_deterministic_witness :
    cdcl_solve_with (fun _ _ => (1, true)) (mkFormula []) 1 =
      cdcl_solve_with (fun _ _ => (1, true)) (mkFormula []) 1 :=
  solve_deterministic (fun _ _ => (1, true)) (fun _ _ => (1, true))
    (mkFormula []) 1 (fun _ _ => rfl)

/-- C8: `Assignments::value` returns `false` for a literal whose variable has
no trail entry; for an assigned variable it returns the stored truth value,
negated when the literal is negative. -/
theorem value_spec (a : Assignments) (l : Literal) :
    (lookupVar a.assignments l.var = none → a.value l = false) ∧
    (∀ x : Assignment, lookupVar a.assignments l.var = some x →
      a.value l = if l.negation then !x.value else x.value) := by
  constructor
  · intro h
    simp [Assignments.value, h]
  · intro x h
    simp [Assignments.value, h]

theorem value_spec_witness :
    Assignments.value ⟨[], 0⟩ ⟨1, false⟩ = false ∧
    Assignments.value ⟨[(1, ⟨true, none, 0⟩)], 0⟩ ⟨1, true⟩ = false := by
  constructor
  · exact (value_spec ⟨[], 0⟩ ⟨1, false⟩).1 rfl
  · exact (value_spec ⟨[(1, ⟨true, none, 0⟩)], 0⟩ ⟨1, true⟩).2
      ⟨true, none, 0⟩ rfl

/-- C10: `value(l.neg()) = !value(l)` holds exactly when the literal's
variable is assigned; on an unassigned variable both `value(l)` and
`value(l.neg())` are `false`, so the negation law fails there. -/
theorem value_neg_spec (a : Assignments) (l : Literal) :
    (a.value l.neg = !a.value l ↔ assignedLit a l = true) ∧
    (lookupVar a.assignments l.var = none →
      a.value l = false ∧ a.value l.neg = false) := by
  constructor
  · constructor
    · intro h
      by_contra hc
      have hnone : lookupVar a.assignments l.var = none := by
        cases hlo : lookupVar a.assignments l.var with
        | none => rfl
        | some x => exact absurd (by simp [assignedLit, hlo]) hc
      simp [Assignments.value, Literal.neg, hnone] at h
    · intro h
      obtain ⟨x, hx⟩ := Option.isSome_iff_exists.mp
        (by simpa [assignedLit] using h)
      cases hn : l.negation <;> cases hxv : x.value <;>
        simp [Assignments.value, Literal.neg, hx, hn, hxv]
  · intro h
    constructor <;> simp [Assignments.value, Literal.neg, h]

theorem value_neg_spec_witness :
    (Assignments.value ⟨[(1, ⟨true, none, 0⟩)], 0⟩ (Literal.neg ⟨1, false⟩) =
      !Assignments.value ⟨[(1, ⟨true, none, 0⟩)], 0⟩ ⟨1, false⟩) ∧
    (Assignments.value ⟨[], 0⟩ ⟨2, false⟩ = false ∧
      Assignments.value ⟨[], 0⟩ (Literal.neg ⟨2, false⟩) = false) := by
  constructor
  · exact (value_neg_spec ⟨[(1, ⟨true, none, 0⟩)], 0⟩ ⟨1, false⟩).1.mpr
      (by decide)
  · exact (value_neg_spec ⟨[], 0⟩ ⟨2, false⟩).2 rfl
